import Mathlib

/-!
Verification of the Performance Analytics Engine
(`src/backend/services/analyzer/__init__.py` and its data model
`src/backend/services/analyzer/models.py`), embedded shallowly:

* datetimes become integer timestamps (a single global timeline; the
  source only ever compares instants after `astimezone`, which does not
  change the instant);
* Python `float` arithmetic becomes exact rational arithmetic over `ℚ`,
  with `round(x, 2)` embedded as `round2`;
* the `Pacific/Auckland` calendar-day key (`astimezone` followed by
  truncation to midnight) is a deterministic function of the instant; the
  timezone database is external to the repository, so that function is a
  parameter `localDay : ℤ → ℤ` of the date-series definitions;
* the fallible division in `get_class_performances` is embedded in
  `Option`, so that reaching a division by zero is observable as `none`.
-/

/-- `ConceptType` from `backend/types/question.py`: the seven fixed
content concepts. -/
inductive ConceptType where
  | operations_on_numbers
  | mathematical_relationships
  | spatial_properties_and_representations
  | location_and_navigation
  | measurement
  | statistics_and_data
  | elements_of_chance
  deriving DecidableEq, Repr, Fintype

/-- `ProcessType` from `backend/types/question.py`: the three fixed
cognitive processes. -/
inductive ProcessType where
  | formulate
  | apply
  | explain
  deriving DecidableEq, Repr, Fintype

/-- `Performance` from `backend/types/user.py`: the five ordinal scores. -/
inductive Performance where
  | not_started
  | attempted
  | familiar
  | proficient
  | mastered
  deriving DecidableEq, Repr, Fintype

/-- `Performance.value`: the numeric value of the enum member (0..4). -/
def Performance.value : Performance → ℕ
  | .not_started => 0
  | .attempted => 1
  | .familiar => 2
  | .proficient => 3
  | .mastered => 4

/-- `Trend` from `services/analyzer/models.py` (spelling of the source
kept): the five trend codes. -/
inductive Trend where
  | deceasing_strong
  | deceasing_slight
  | stable
  | increasing_slight
  | increasing_strong
  deriving DecidableEq, Repr, Fintype

/-- The `IntEnum` value of a `Trend` member. -/
def Trend.value : Trend → ℤ
  | .deceasing_strong => -2
  | .deceasing_slight => -1
  | .stable => 0
  | .increasing_slight => 1
  | .increasing_strong => 2

/-- A `CompletedSubQuestion` row (`backend/db/models/user.py`) as the
analyzer reads it: the sub-question id, the sub-question's fixed concept
and process, the graded performance, and the creation instant
(`created_at`, timezone-aware, embedded as an integer timestamp). -/
structure Attempt where
  subQuestionId : ℕ
  concept : ConceptType
  process : ProcessType
  performance : Performance
  createdAt : ℤ
  deriving DecidableEq, Repr

/-- Python `round(x, 2)` over exact rationals: round `100 * x` to the
nearest integer and divide by `100` (the tie-breaking rule differs from
Python's round-half-to-even, but no claim exercises a tie). -/
def round2 (q : ℚ) : ℚ := (round (100 * q) : ℤ) / 100

/-- A performance matrix with one value of type `α` per (concept,
process) cell, as the pydantic models hold (21 cells, always all
present). -/
abbrev Matrix21 (α : Type) := ConceptType → ProcessType → α

/-- The window filter of `Analyzer.get_performances` (lines 347-352):
an attempt is skipped iff a window is given and `created_at` is
strictly older than `now - timedelta`; it survives otherwise. -/
def surviveAgg (now : ℤ) (window : Option ℤ) (a : Attempt) : Bool :=
  match window with
  | none => true
  | some w => !(a.createdAt < now - w)

/-- The window filter of `Analyzer.get_performance_date_data`
(lines 208-214): an attempt is kept iff no window is given or
`created_at` is strictly newer than `now - timedelta`. -/
def surviveDate (now : ℤ) (window : Option ℤ) (a : Attempt) : Bool :=
  match window with
  | none => true
  | some w => now - w < a.createdAt

/-- Replace the value stored at key `k` in an association list, keeping
its position — what assigning to an existing key of a Python dict does. -/
def updateKey (k : ℕ) (a : Attempt) :
    List (ℕ × Attempt) → List (ℕ × Attempt)
  | [] => []
  | (k', b) :: rest =>
      if k' = k then (k', a) :: rest else (k', b) :: updateKey k a rest

/-- One iteration of the dedup loop of `Analyzer.get_performances`
(lines 353-361) on the `unique_sub_questions` dict: a first attempt for
a key is inserted at the end (Python dicts preserve insertion order);
a later attempt replaces the stored one only when its `created_at` is
strictly greater. -/
def dedupInsert (acc : List (ℕ × Attempt)) (a : Attempt) :
    List (ℕ × Attempt) :=
  match acc.lookup a.subQuestionId with
  | none => acc ++ [(a.subQuestionId, a)]
  | some b =>
      if b.createdAt < a.createdAt then updateKey a.subQuestionId a acc
      else acc

/-- The whole loop body of `Analyzer.get_performances` (lines 346-361):
skip attempts outside the window, dedup the rest. -/
def aggStep (now : ℤ) (window : Option ℤ) (acc : List (ℕ × Attempt))
    (a : Attempt) : List (ℕ × Attempt) :=
  if surviveAgg now window a then dedupInsert acc a else acc

/-- `unique_sub_questions` after the loop of `Analyzer.get_performances`:
the association list of surviving, deduplicated attempts in dict order. -/
def uniqueSubQuestions (now : ℤ) (window : Option ℤ)
    (attempts : List Attempt) : List (ℕ × Attempt) :=
  attempts.foldl (aggStep now window) []

/-- `Analyzer.get_performances` (lines 326-409): the raw score-list
matrix.  The result dict is initialized with all 21 cells empty
(lines 363-399) and each deduplicated attempt appends its performance
value to its (concept, process) cell in dict order (lines 401-406). -/
def getPerformances (now : ℤ) (window : Option ℤ)
    (attempts : List Attempt) : Matrix21 (List ℕ) :=
  fun c p =>
    (uniqueSubQuestions now window attempts).filterMap
      (fun kv =>
        if kv.2.concept = c ∧ kv.2.process = p then
          some kv.2.performance.value
        else none)

/-- Python `max` over a nonempty list (`max(cell)` in the source). -/
def listMax : List ℕ → ℕ
  | [] => 0
  | x :: xs => xs.foldl max x

/-- The per-cell reduction of `Analyzer.get_best_performances`
(lines 37-43): `max(cell) if len(cell) > 0 else 0`. -/
def bestCell (l : List ℕ) : ℚ :=
  if 0 < l.length then (listMax l : ℚ) else 0

/-- The per-cell reduction of `Analyzer.get_average_performances`
(lines 62-70): `round(sum(cell)/len(cell) if len(cell) > 0 else 0, 2)`. -/
def avgCell (l : List ℕ) : ℚ :=
  round2
    (if 0 < l.length then
      (l.map (fun x : ℕ => (x : ℚ))).sum / (l.length : ℚ)
    else 0)

/-- `Analyzer.get_best_performances` (lines 23-46): no window. -/
def getBestPerformances (now : ℤ) (attempts : List Attempt) :
    Matrix21 ℚ :=
  fun c p => bestCell (getPerformances now none attempts c p)

/-- `Analyzer.get_average_performances` (lines 48-73): no window. -/
def getAveragePerformances (now : ℤ) (attempts : List Attempt) :
    Matrix21 ℚ :=
  fun c p => avgCell (getPerformances now none attempts c p)

/-- `Analyzer.get_recent_best_performances` (lines 75-102): same
reduction over the windowed matrix. -/
def getRecentBestPerformances (now w : ℤ) (attempts : List Attempt) :
    Matrix21 ℚ :=
  fun c p => bestCell (getPerformances now (some w) attempts c p)

/-- `Analyzer.get_recent_average_performances` (lines 104-133): same
reduction over the windowed matrix. -/
def getRecentAveragePerformances (now w : ℤ) (attempts : List Attempt) :
    Matrix21 ℚ :=
  fun c p => avgCell (getPerformances now (some w) attempts c p)

/-- The exact ordinary-least-squares slope of `ys` against
`x = [0, 1, ..., n-1]`, the quantity `np.polyfit(x, y, 1)[0]`
approximates (lines 161-168), here over exact rationals. -/
def olsSlope (ys : List ℚ) : ℚ :=
  let n : ℚ := ys.length
  let xs : List ℚ := (List.range ys.length).map (fun i : ℕ => (i : ℚ))
  let sx := xs.sum
  let sy := ys.sum
  let sxy := ((xs.zip ys).map (fun q => q.1 * q.2)).sum
  let sxx := (xs.map (fun x => x * x)).sum
  (n * sxy - sx * sy) / (n * sxx - sx * sx)

/-- The per-cell classifier of `Analyzer.get_performance_trends`
(lines 158-178): fewer than two points yield `0` (= `STABLE`); the dead
re-check `x.size <= 1` (lines 164-166) also yields `STABLE`; otherwise
the slope, rounded to two decimals, is mapped through the threshold
chain with `STABLE` as the final `else`. -/
def classifyCell (ys : List ℕ) : Trend :=
  if ys.length < 2 then .stable
  else if ys.length ≤ 1 then .stable
  else
    let g := round2 (olsSlope (ys.map (fun y : ℕ => (y : ℚ))))
    if 1 < g then .increasing_strong
    else if 0 < g ∧ g ≤ 1 then .increasing_slight
    else if -1 ≤ g ∧ g < 0 then .deceasing_slight
    else if g < -1 then .deceasing_strong
    else .stable

/-- `Analyzer.get_performance_trends` (lines 135-181). -/
def getPerformanceTrends (now : ℤ) (window : Option ℤ)
    (attempts : List Attempt) : Matrix21 Trend :=
  fun c p => classifyCell (getPerformances now window attempts c p)

/-- The inner `_get_average` of `Analyzer.get_performance_date_data`
(lines 198-203): `round(sum(performances)/len(group), 2)`; the source
divides unconditionally and only ever applies it to nonempty groups. -/
def getAverageDate (l : List ℕ) : ℚ :=
  round2 ((l.map (fun x : ℕ => (x : ℚ))).sum / (l.length : ℚ))

/-- The `dates` accumulation loop of `Analyzer.get_performance_date_data`
(lines 216-223): first-occurrence order, duplicates skipped.
`localDay` is the `Pacific/Auckland` day key — `astimezone` to that zone
followed by truncation to the start of the day, a deterministic function
of the instant; the timezone database is external to the repository, so
the function is a parameter. -/
def collectDates (localDay : ℤ → ℤ) (as : List Attempt) : List ℤ :=
  as.foldl
    (fun ds a =>
      if localDay a.createdAt ∈ ds then ds else ds ++ [localDay a.createdAt])
    []

/-- `Analyzer.get_performance_date_data` (lines 183-244): filter by the
window, collect the distinct day keys, sort them ascending
(`dates.sort()`), and pair each day with the rounded average of the
performances of all surviving attempts falling on it. -/
def getPerformanceDateData (localDay : ℤ → ℤ) (now : ℤ)
    (window : Option ℤ) (attempts : List Attempt) : List ℚ × List ℤ :=
  let survivors := attempts.filter (surviveDate now window)
  let dates := (collectDates localDay survivors).insertionSort (· ≤ ·)
  (dates.map (fun d =>
      getAverageDate
        ((survivors.filter (fun a => localDay a.createdAt == d)).map
          (fun a => a.performance.value))),
    dates)

/-- The 30-day window of `Analyzer.get_class_performances` (line 303),
with timestamps in seconds. -/
def thirtyDays : ℤ := 30 * 86400

/-- One iteration of the per-student loop of
`Analyzer.get_class_performances` (lines 300-312): add
`student_value / len(class_.students)` into each cell.  The Python
division raises `ZeroDivisionError` when the roster size is zero, so
the step is embedded in `Option` with `none` marking a reached division
by zero; `n` is the roster size, fixed by the caller. -/
def classStep (now : ℤ) (n : ℚ) (acc : Option (Matrix21 ℚ))
    (s : List Attempt) : Option (Matrix21 ℚ) :=
  match acc with
  | none => none
  | some m =>
      if n = 0 then none
      else
        some (fun c p =>
          m c p + getRecentAveragePerformances now thirtyDays s c p / n)

/-- The whole of `Analyzer.get_class_performances` for an existing
class: fold `classStep` over the roster starting from the zero matrix,
then round every cell (lines 314-320). -/
def getClassPerformances (now : ℤ) (students : List (List Attempt)) :
    Option (Matrix21 ℚ) :=
  match students.foldl (classStep now (students.length : ℚ))
      (some (fun _ _ => (0 : ℚ))) with
  | none => none
  | some m => some (fun c p => round2 (m c p))

/-- Modelled from the spec's threshold table (§4.4, restated in the
claim): the mapping of a rounded slope to a trend code, written from the
spec's words to be compared with the source's chain in `classifyCell`. -/
def trendOfSlope (m : ℚ) : Trend :=
  if 1 < m then .increasing_strong
  else if 0 < m ∧ m ≤ 1 then .increasing_slight
  else if -1 ≤ m ∧ m < 0 then .deceasing_slight
  else if m < -1 then .deceasing_strong
  else .stable

/-- A Python `datetime` at the service boundary: an instant plus
whether it is timezone-aware. -/
structure PyDateTime where
  t : ℤ
  aware : Bool
  deriving DecidableEq, Repr

/-- Python datetime subtraction: mixing an aware and a naive datetime
raises `TypeError`; otherwise the difference of the instants. -/
def dtSub (a b : PyDateTime) : Except String ℤ :=
  if a.aware = b.aware then .ok (a.t - b.t)
  else .error "TypeError"

/-- The `get_performance_date_data` service endpoint
(`backend/api/service.py`, lines 400-414), after the permission checks:
`timedelta = datetime.datetime.now(utc) - start_time` when a start time
is supplied (`now` is timezone-aware), the analyzer is called with it,
and a `TypeError` from the subtraction is converted to HTTP 400. -/
def serviceGetPerformanceDateData (localDay : ℤ → ℤ) (now : ℤ)
    (startTime : Option PyDateTime) (attempts : List Attempt) :
    Except ℕ (List ℚ × List ℤ) :=
  match startTime with
  | none => .ok (getPerformanceDateData localDay now none attempts)
  | some st =>
      match dtSub ⟨now, true⟩ st with
      | .error _ => .error 400
      | .ok w => .ok (getPerformanceDateData localDay now (some w) attempts)

/-- The loop invariant of the dedup loop of `Analyzer.get_performances`
over the attempts `seen` so far: the dict keys are distinct; every
surviving seen attempt has its `sub_question_id` among the keys; and
every stored entry is a surviving seen attempt carrying its own key
whose `created_at` is maximal among the surviving seen attempts with
that key. -/
def AggInv (now : ℤ) (window : Option ℤ) (seen : List Attempt)
    (acc : List (ℕ × Attempt)) : Prop :=
  (acc.map Prod.fst).Nodup ∧
  (∀ b ∈ seen, surviveAgg now window b = true →
      b.subQuestionId ∈ acc.map Prod.fst) ∧
  (∀ kv ∈ acc, kv.2.subQuestionId = kv.1 ∧ kv.2 ∈ seen ∧
      surviveAgg now window kv.2 = true ∧
      ∀ b ∈ seen, surviveAgg now window b = true →
        b.subQuestionId = kv.1 → b.createdAt ≤ kv.2.createdAt)

/-! ## Rollup lemmas -/

theorem listMax_cons (x y : ℕ) (ys : List ℕ) :
    listMax (x :: y :: ys) = listMax (max x y :: ys) := rfl

theorem listMax_mem : ∀ (xs : List ℕ) (x : ℕ), listMax (x :: xs) ∈ x :: xs := by
  intro xs
  induction xs with
  | nil => intro x; simp [listMax]
  | cons y ys ih =>
      intro x
      rw [listMax_cons]
      rcases List.mem_cons.mp (ih (max x y)) with h | h
      · rcases max_choice x y with hxy | hxy <;> rw [h, hxy] <;> simp
      · simp [h]

theorem le_listMax :
    ∀ (xs : List ℕ) (x : ℕ), ∀ y ∈ x :: xs, y ≤ listMax (x :: xs) := by
  intro xs
  induction xs with
  | nil => intro x y hy; simp at hy; simp [hy, listMax]
  | cons z zs ih =>
      intro x y hy
      rw [listMax_cons]
      rcases List.mem_cons.mp hy with h | h
      · calc y = x := h
          _ ≤ max x z := le_max_left x z
          _ ≤ listMax (max x z :: zs) := ih (max x z) _ (List.mem_cons_self _ _)
      · rcases List.mem_cons.mp h with h2 | h2
        · calc y = z := h2
            _ ≤ max x z := le_max_right x z
            _ ≤ listMax (max x z :: zs) := ih (max x z) _ (List.mem_cons_self _ _)
        · exact ih (max x z) y (List.mem_cons_of_mem _ h2)

theorem rollup_cell_spec (l : List ℕ) :
    (l = [] → bestCell l = 0 ∧ avgCell l = 0) ∧
    (l ≠ [] →
      (∃ v ∈ l, bestCell l = (v : ℚ) ∧ ∀ x ∈ l, x ≤ v) ∧
      avgCell l =
        round2 ((l.map (fun x : ℕ => (x : ℚ))).sum / (l.length : ℚ))) := by
  constructor
  · rintro rfl
    constructor
    · simp [bestCell]
    · simp [avgCell, round2]
  · intro h
    obtain ⟨x, xs, rfl⟩ := List.exists_cons_of_ne_nil h
    constructor
    · refine ⟨listMax (x :: xs), listMax_mem xs x, ?_, le_listMax xs x⟩
      simp [bestCell]
    · simp [avgCell]

/-- C1: on every cell of the raw matrix, `get_best_performances` yields
the maximum of the score list (a member bounding every member), or `0`
when the list is empty, and `get_average_performances` yields the
arithmetic mean rounded to 2 decimal places, or `0` when the list is
empty; both are total functions of the fetched attempts. -/
theorem C1_best_and_average_rollups (now : ℤ) (attempts : List Attempt)
    (c : ConceptType) (p : ProcessType) :
    (getPerformances now none attempts c p = [] →
      getBestPerformances now attempts c p = 0 ∧
      getAveragePerformances now attempts c p = 0) ∧
    (getPerformances now none attempts c p ≠ [] →
      (∃ v ∈ getPerformances now none attempts c p,
        getBestPerformances now attempts c p = (v : ℚ) ∧
        ∀ x ∈ getPerformances now none attempts c p, x ≤ v) ∧
      getAveragePerformances now attempts c p =
        round2 (((getPerformances now none attempts c p).map
            (fun x : ℕ => (x : ℚ))).sum /
          ((getPerformances now none attempts c p).length : ℚ))) :=
  rollup_cell_spec (getPerformances now none attempts c p)

/-! ## Class aggregation -/

theorem classFold_eq (now : ℤ) (n : ℚ) (hn : n ≠ 0) :
    ∀ (students : List (List Attempt)) (m : Matrix21 ℚ),
      students.foldl (classStep now n) (some m) =
        some (fun c p =>
          m c p +
            (students.map
              (fun s => getRecentAveragePerformances now thirtyDays s c p)).sum
              / n) := by
  intro students
  induction students with
  | nil =>
      intro m
      simp only [List.foldl_nil, List.map_nil, List.sum_nil, zero_div, add_zero]
  | cons s ss ih =>
      intro m
      rw [List.foldl_cons]
      have hstep : classStep now n (some m) s =
          some (fun c p =>
            m c p + getRecentAveragePerformances now thirtyDays s c p / n) := by
        simp [classStep, hn]
      rw [hstep, ih]
      congr 1
      funext c p
      simp only [List.map_cons, List.sum_cons, add_div]
      ring

theorem classPerformances_nil (now : ℤ) :
    getClassPerformances now [] = some (fun _ _ => (0 : ℚ)) := by
  unfold getClassPerformances
  simp only [List.foldl_nil]
  show some (fun _ _ => round2 0) = some (fun _ _ => (0 : ℚ))
  congr 1
  funext c p
  simp [round2]

theorem classPerformances_eq (now : ℤ) (students : List (List Attempt))
    (h : students ≠ []) :
    getClassPerformances now students =
      some (fun c p =>
        round2
          ((students.map
              (fun s => getRecentAveragePerformances now thirtyDays s c p)).sum
            / (students.length : ℚ))) := by
  have hn : (students.length : ℚ) ≠ 0 := by
    have : students.length ≠ 0 := fun h0 => h (List.length_eq_zero.mp h0)
    exact_mod_cast this
  unfold getClassPerformances
  rw [classFold_eq now _ hn students (fun _ _ => 0)]
  show some _ = some _
  congr 1
  funext c p
  simp only [zero_add]

/-- C5: for a non-empty roster, each cell of `get_class_performances`
is the unweighted mean, over the roster, of that cell's per-student
30-day recent-average value, rounded to 2 decimal places: the
incremental `student_value / n` running sum of the source equals the
sum-then-divide mean over exact rational arithmetic. -/
theorem C5_class_average_law (now : ℤ) (students : List (List Attempt))
    (h : students ≠ []) :
    getClassPerformances now students =
      some (fun c p =>
        round2
          ((students.map
              (fun s => getRecentAveragePerformances now thirtyDays s c p)).sum
            / (students.length : ℚ))) :=
  classPerformances_eq now students h

/-- C5 witness: the class-average law evaluated for a one-student
roster whose student has no attempts. -/
theorem C5_class_average_law_witness :
    getClassPerformances 0 [[]] =
      some (fun c p =>
        round2
          ((([[]] : List (List Attempt)).map
              (fun s => getRecentAveragePerformances 0 thirtyDays s c p)).sum
            / (([[]] : List (List Attempt)).length : ℚ))) :=
  C5_class_average_law 0 [[]] (List.cons_ne_nil _ _)

/-- C6 counterexample: for an empty roster, `get_class_performances`
does not fault — the per-student loop never runs, so the division by
the roster size is never reached — and it returns the all-zero matrix. -/
theorem C6_counterexample_empty_roster_defined :
    getClassPerformances 0 [] ≠ none ∧
    getClassPerformances 0 [] = some (fun _ _ => (0 : ℚ)) := by
  refine ⟨?_, classPerformances_nil 0⟩
  rw [classPerformances_nil 0]
  simp

/-- C6 amended: for an existing class whose roster is empty,
`get_class_performances` returns the defined all-zero matrix; the
division by the roster size sits inside the per-student loop, which
never executes, so no division by zero is reached. -/
theorem C6_amended_empty_roster_zero_matrix (now : ℤ) :
    getClassPerformances now [] = some (fun _ _ => (0 : ℚ)) :=
  classPerformances_nil now

/-! ## The two window filters -/

/-- C7 counterexample: at `created_at = now - window` the two filters
disagree — the aggregator of `get_performances` keeps the attempt
(`<` comparison), the date-series filter of
`get_performance_date_data` drops it (`>` comparison). -/
theorem C7_counterexample_boundary_attempt :
    surviveAgg 0 (some 10) ⟨1, .measurement, .apply, .mastered, -10⟩ = true ∧
    surviveDate 0 (some 10) ⟨1, .measurement, .apply, .mastered, -10⟩ = false := by
  constructor <;> decide

/-- C7 amended: the aggregator filter and the date-series filter agree
on every attempt whose `created_at` is not exactly `now - window`
(and always agree when no window is given); at the exact boundary the
aggregator keeps the attempt while the date series drops it. -/
theorem C7_amended_filters_agree_off_boundary (now : ℤ) (window : Option ℤ)
    (a : Attempt) (h : ∀ w, window = some w → a.createdAt ≠ now - w) :
    surviveAgg now window a = surviveDate now window a := by
  cases window with
  | none => rfl
  | some w =>
      have h2 := h w rfl
      simp only [surviveAgg, surviveDate]
      rw [Bool.eq_iff_iff]
      simp only [Bool.not_eq_true', decide_eq_false_iff_not, decide_eq_true_eq, not_lt]
      omega

/-- C7 witness: the amended agreement evaluated away from the boundary. -/
theorem C7_amended_filters_agree_witness :
    surviveAgg 0 (some 10) ⟨1, .measurement, .apply, .mastered, 5⟩ =
      surviveDate 0 (some 10) ⟨1, .measurement, .apply, .mastered, 5⟩ :=
  C7_amended_filters_agree_off_boundary 0 (some 10) _
    (by intro w hw; rw [Option.some.injEq] at hw; subst hw; decide)

/-! ## The service boundary -/

/-- C9: when the date-series request carries a naive (not
timezone-aware) start time, the endpoint answers with the HTTP 400
client-input error produced from the caught `TypeError` of
`now - start_time`; when the start time is timezone-aware the
subtraction succeeds and no such error is raised. -/
theorem C9_naive_start_time_is_client_error (localDay : ℤ → ℤ) (now : ℤ)
    (st : PyDateTime) (attempts : List Attempt) :
    (st.aware = false →
      serviceGetPerformanceDateData localDay now (some st) attempts =
        .error 400) ∧
    (st.aware = true →
      serviceGetPerformanceDateData localDay now (some st) attempts =
        .ok (getPerformanceDateData localDay now (some (now - st.t)) attempts)) := by
  obtain ⟨t, aware⟩ := st
  cases aware <;>
    simp [serviceGetPerformanceDateData, dtSub]

/-! ## Deduplication -/

/-- C10: the dedup of `get_performances` is first-wins on timestamp
ties — the strict `>` comparison never replaces the stored attempt when
`created_at` is equal, and for two same-id, same-timestamp attempts the
one enumerated first in the fetched list is the one kept. -/
theorem C10_dedup_tie_keeps_first :
    (∀ (acc : List (ℕ × Attempt)) (a b : Attempt),
        acc.lookup a.subQuestionId = some b →
        b.createdAt = a.createdAt → dedupInsert acc a = acc) ∧
    (∀ (now : ℤ) (a b : Attempt),
        a.subQuestionId = b.subQuestionId → a.createdAt = b.createdAt →
        uniqueSubQuestions now none [a, b] = [(a.subQuestionId, a)]) := by
  constructor
  · intro acc a b hl he
    unfold dedupInsert
    rw [hl]
    show (if b.createdAt < a.createdAt then updateKey a.subQuestionId a acc
          else acc) = acc
    rw [he]
    simp
  · intro now a b hid hca
    show aggStep now none (aggStep now none [] a) b = [(a.subQuestionId, a)]
    unfold aggStep surviveAgg
    simp only [if_true]
    show dedupInsert (dedupInsert [] a) b = [(a.subQuestionId, a)]
    unfold dedupInsert
    simp [List.lookup, ← hid, ← hca]

/-! ## The trend classifier -/

theorem classifyCell_spec (ys : List ℕ) :
    (ys.length < 2 → classifyCell ys = .stable) ∧
    (2 ≤ ys.length →
      classifyCell ys =
        trendOfSlope (round2 (olsSlope (ys.map (fun y : ℕ => (y : ℚ)))))) := by
  constructor
  · intro h
    unfold classifyCell
    rw [if_pos h]
  · intro h
    have h1 : ¬ ys.length < 2 := by omega
    have h2 : ¬ ys.length ≤ 1 := by omega
    unfold classifyCell trendOfSlope
    rw [if_neg h1, if_neg h2]

/-- C2: each cell of `get_performance_trends` is `stable` when the cell
has fewer than two scores, and otherwise is the rounded exact
ordinary-least-squares slope of the scores against `[0, 1, ..., n-1]`
mapped through the spec's threshold table (`trendOfSlope`, whose final
case is exactly `m = 0 → stable`); in particular `[0,1,2,3,4]` (slope
exactly 1) classifies as `increasing_slight`, `[0,2,4,6,8]` (slope 2)
as `increasing_strong`, and any single-score cell as `stable`. -/
theorem C2_trend_classifier (now : ℤ) (window : Option ℤ)
    (attempts : List Attempt) (c : ConceptType) (p : ProcessType) :
    ((getPerformances now window attempts c p).length < 2 →
      getPerformanceTrends now window attempts c p = .stable) ∧
    (2 ≤ (getPerformances now window attempts c p).length →
      getPerformanceTrends now window attempts c p =
        trendOfSlope (round2 (olsSlope
          ((getPerformances now window attempts c p).map
            (fun y : ℕ => (y : ℚ)))))) ∧
    classifyCell [0, 1, 2, 3, 4] = .increasing_slight ∧
    classifyCell [0, 2, 4, 6, 8] = .increasing_strong ∧
    (∀ y : ℕ, classifyCell [y] = .stable) := by
  refine ⟨(classifyCell_spec _).1, (classifyCell_spec _).2, ?_, ?_, ?_⟩
  · have h : olsSlope ([0, 1, 2, 3, 4] : List ℚ) = 1 := by
      norm_num [olsSlope, List.range_succ]
    norm_num [classifyCell, round2, round_eq, h]
  · have h : olsSlope ([0, 2, 4, 6, 8] : List ℚ) = 2 := by
      norm_num [olsSlope, List.range_succ]
    norm_num [classifyCell, round2, round_eq, h]
  · intro y
    norm_num [classifyCell]

/-! ## Shape and range invariants -/

theorem Performance.value_le_four : ∀ q : Performance, q.value ≤ 4 := by
  decide

theorem Trend.value_range : ∀ t : Trend,
    t.value ∈ ({-2, -1, 0, 1, 2} : Finset ℤ) := by
  decide

theorem getPerformances_elems_le (now : ℤ) (window : Option ℤ)
    (attempts : List Attempt) (c : ConceptType) (p : ProcessType) :
    ∀ x ∈ getPerformances now window attempts c p, x ≤ 4 := by
  intro x hx
  unfold getPerformances at hx
  obtain ⟨kv, _, heq⟩ := List.mem_filterMap.mp hx
  by_cases hc : kv.2.concept = c ∧ kv.2.process = p
  · rw [if_pos hc] at heq
    obtain rfl : kv.2.performance.value = x := Option.some.inj heq
    exact Performance.value_le_four _
  · rw [if_neg hc] at heq
    exact Option.noConfusion heq

theorem round2_bounds (q : ℚ) (h0 : 0 ≤ q) (h4 : q ≤ 4) :
    0 ≤ round2 q ∧ round2 q ≤ 4 := by
  unfold round2
  rw [round_eq]
  constructor
  · apply div_nonneg _ (by norm_num : (0 : ℚ) ≤ 100)
    have h : (0 : ℤ) ≤ ⌊100 * q + 1 / 2⌋ := by
      apply Int.le_floor.mpr
      push_cast
      linarith
    exact_mod_cast h
  · rw [div_le_iff₀ (by norm_num : (0 : ℚ) < 100)]
    have h : ⌊100 * q + 1 / 2⌋ ≤ 400 := by
      have h2 : ⌊100 * q + 1 / 2⌋ < 401 := by
        apply Int.floor_lt.mpr
        push_cast
        linarith
      omega
    calc ((⌊100 * q + 1 / 2⌋ : ℤ) : ℚ) ≤ ((400 : ℤ) : ℚ) := by
          exact_mod_cast h
      _ ≤ 4 * 100 := by norm_num

theorem bestCell_bounds (l : List ℕ) (h : ∀ x ∈ l, x ≤ 4) :
    0 ≤ bestCell l ∧ bestCell l ≤ 4 := by
  cases l with
  | nil => norm_num [bestCell]
  | cons x xs =>
      unfold bestCell
      rw [if_pos (by simp)]
      constructor
      · positivity
      · exact_mod_cast h _ (listMax_mem xs x)

theorem sum_cast_nonneg (l : List ℕ) :
    0 ≤ (l.map (fun x : ℕ => (x : ℚ))).sum := by
  induction l with
  | nil => simp
  | cons x xs ih =>
      simp only [List.map_cons, List.sum_cons]
      exact add_nonneg (Nat.cast_nonneg x) ih

theorem sum_cast_le (l : List ℕ) (h : ∀ x ∈ l, x ≤ 4) :
    (l.map (fun x : ℕ => (x : ℚ))).sum ≤ 4 * l.length := by
  induction l with
  | nil => simp
  | cons x xs ih =>
      simp only [List.map_cons, List.sum_cons, List.length_cons]
      have h1 : (x : ℚ) ≤ 4 := by
        exact_mod_cast h x (List.mem_cons_self _ _)
      have h2 := ih (fun y hy => h y (List.mem_cons_of_mem _ hy))
      push_cast
      linarith

theorem sum_le_four_mul_length (l : List ℚ) (h : ∀ x ∈ l, x ≤ 4) :
    l.sum ≤ 4 * l.length := by
  induction l with
  | nil => simp
  | cons x xs ih =>
      simp only [List.sum_cons, List.length_cons]
      have h1 := h x (List.mem_cons_self _ _)
      have h2 := ih (fun y hy => h y (List.mem_cons_of_mem _ hy))
      push_cast
      linarith

theorem avgCell_bounds (l : List ℕ) (h : ∀ x ∈ l, x ≤ 4) :
    0 ≤ avgCell l ∧ avgCell l ≤ 4 := by
  unfold avgCell
  by_cases hl : 0 < l.length
  · rw [if_pos hl]
    apply round2_bounds
    · exact div_nonneg (sum_cast_nonneg l) (by positivity)
    · have hlen : (0 : ℚ) < (l.length : ℚ) := by exact_mod_cast hl
      rw [div_le_iff₀ hlen]
      exact sum_cast_le l h
  · rw [if_neg hl]
    norm_num [round2]

theorem recentAvg_bounds (now w : ℤ) (s : List Attempt)
    (c : ConceptType) (p : ProcessType) :
    0 ≤ getRecentAveragePerformances now w s c p ∧
      getRecentAveragePerformances now w s c p ≤ 4 :=
  avgCell_bounds _ (getPerformances_elems_le now (some w) s c p)

theorem classPerformances_bounds (now : ℤ)
    (students : List (List Attempt)) (m : Matrix21 ℚ)
    (hm : getClassPerformances now students = some m)
    (c : ConceptType) (p : ProcessType) : 0 ≤ m c p ∧ m c p ≤ 4 := by
  rcases eq_or_ne students [] with rfl | hne
  · rw [classPerformances_nil] at hm
    have h := Option.some.inj hm
    rw [← h]
    norm_num
  · rw [classPerformances_eq now students hne] at hm
    have h := Option.some.inj hm
    rw [← h]
    have hn : (0 : ℚ) < (students.length : ℚ) := by
      have : 0 < students.length := List.length_pos.mpr hne
      exact_mod_cast this
    apply round2_bounds
    · apply div_nonneg _ (le_of_lt hn)
      apply List.sum_nonneg
      intro x hx
      obtain ⟨s, _, hs⟩ := List.mem_map.mp hx
      rw [← hs]
      exact (recentAvg_bounds now thirtyDays s c p).1
    · rw [div_le_iff₀ hn]
      have hsum : (students.map
            (fun s => getRecentAveragePerformances now thirtyDays s c p)).sum ≤
          4 * ((students.map
            (fun s => getRecentAveragePerformances now thirtyDays s c p)).length
              : ℚ) := by
        apply sum_le_four_mul_length
        intro x hx
        obtain ⟨s, _, hs⟩ := List.mem_map.mp hx
        rw [← hs]
        exact (recentAvg_bounds now thirtyDays s c p).2
      rwa [List.length_map] at hsum

/-- C8: the taxonomy has exactly the 21 fixed (concept, process) cells
and every matrix output is total over them (a `Matrix21` assigns a value
to every cell, empty list or zero when no data contributes); every raw
score is at most 4; every best/average/recent rollup and every class
average cell lies in [0, 4]; every trend code lies in
\x7b-2, -1, 0, 1, 2\x7d. -/
theorem C8_shape_and_ranges (now w : ℤ) (window : Option ℤ)
    (attempts : List Attempt) (students : List (List Attempt))
    (c : ConceptType) (p : ProcessType) :
    Fintype.card (ConceptType × ProcessType) = 21 ∧
    (∀ x ∈ getPerformances now window attempts c p, x ≤ 4) ∧
    (0 ≤ getBestPerformances now attempts c p ∧
      getBestPerformances now attempts c p ≤ 4) ∧
    (0 ≤ getAveragePerformances now attempts c p ∧
      getAveragePerformances now attempts c p ≤ 4) ∧
    (0 ≤ getRecentBestPerformances now w attempts c p ∧
      getRecentBestPerformances now w attempts c p ≤ 4) ∧
    (0 ≤ getRecentAveragePerformances now w attempts c p ∧
      getRecentAveragePerformances now w attempts c p ≤ 4) ∧
    (∀ m, getClassPerformances now students = some m →
      0 ≤ m c p ∧ m c p ≤ 4) ∧
    (getPerformanceTrends now window attempts c p).value ∈
      ({-2, -1, 0, 1, 2} : Finset ℤ) :=
  ⟨by decide,
    getPerformances_elems_le now window attempts c p,
    bestCell_bounds _ (getPerformances_elems_le now none attempts c p),
    avgCell_bounds _ (getPerformances_elems_le now none attempts c p),
    bestCell_bounds _ (getPerformances_elems_le now (some w) attempts c p),
    avgCell_bounds _ (getPerformances_elems_le now (some w) attempts c p),
    fun m hm => classPerformances_bounds now students m hm c p,
    Trend.value_range _⟩

/-! ## Deduplication invariant -/

theorem lookup_cons_self (k : ℕ) (v : Attempt)
    (rest : List (ℕ × Attempt)) : ((k, v) :: rest).lookup k = some v := by
  simp [List.lookup]

theorem lookup_cons_ne (k k' : ℕ) (v : Attempt)
    (rest : List (ℕ × Attempt)) (h : k ≠ k') :
    ((k', v) :: rest).lookup k = rest.lookup k := by
  have hbe : (k == k') = false := beq_eq_false_iff_ne.mpr h
  simp [List.lookup, hbe]

theorem lookup_none_iff (k : ℕ) :
    ∀ l : List (ℕ × Attempt), l.lookup k = none ↔ k ∉ l.map Prod.fst := by
  intro l
  induction l with
  | nil => simp [List.lookup]
  | cons kv rest ih =>
      obtain ⟨k', v⟩ := kv
      by_cases h : k = k'
      · subst h
        rw [lookup_cons_self]
        simp
      · rw [lookup_cons_ne _ _ _ _ h, ih]
        simp [h]

theorem lookup_some_mem (k : ℕ) (v : Attempt) :
    ∀ l : List (ℕ × Attempt), l.lookup k = some v → (k, v) ∈ l := by
  intro l
  induction l with
  | nil => intro h; simp [List.lookup] at h
  | cons kv rest ih =>
      obtain ⟨k', b⟩ := kv
      intro h
      by_cases hk : k = k'
      · subst hk
        rw [lookup_cons_self] at h
        obtain rfl : b = v := Option.some.inj h
        exact List.mem_cons_self _ _
      · rw [lookup_cons_ne _ _ _ _ hk] at h
        exact List.mem_cons_of_mem _ (ih h)

theorem updateKey_keys (k : ℕ) (a : Attempt) :
    ∀ l : List (ℕ × Attempt),
      (updateKey k a l).map Prod.fst = l.map Prod.fst := by
  intro l
  induction l with
  | nil => rfl
  | cons kv rest ih =>
      obtain ⟨k', b⟩ := kv
      unfold updateKey
      by_cases h : k' = k
      · rw [if_pos h]
        simp
      · rw [if_neg h]
        simp only [List.map_cons, ih]

theorem nodup_key_unique :
    ∀ l : List (ℕ × Attempt), (l.map Prod.fst).Nodup →
      ∀ (k : ℕ) (a b : Attempt), (k, a) ∈ l → (k, b) ∈ l → a = b := by
  intro l
  induction l with
  | nil => intro _ k a b ha; simp at ha
  | cons kv rest ih =>
      intro hnd k a b ha hb
      simp only [List.map_cons, List.nodup_cons] at hnd
      obtain ⟨hk, hnd2⟩ := hnd
      rcases List.mem_cons.mp ha with h1 | h1 <;>
        rcases List.mem_cons.mp hb with h2 | h2
      · have h3 : (k, a) = (k, b) := h1.trans h2.symm
        exact ((Prod.mk.injEq _ _ _ _).mp h3).2
      · exfalso
        have h3 : k ∈ rest.map Prod.fst := List.mem_map.mpr ⟨(k, b), h2, rfl⟩
        rw [← h1] at hk
        exact hk h3
      · exfalso
        have h3 : k ∈ rest.map Prod.fst := List.mem_map.mpr ⟨(k, a), h1, rfl⟩
        rw [← h2] at hk
        exact hk h3
      · exact ih hnd2 k a b h1 h2

theorem updateKey_mem_strong (k : ℕ) (a : Attempt) :
    ∀ l : List (ℕ × Attempt), (l.map Prod.fst).Nodup →
      ∀ kv ∈ updateKey k a l,
        (kv = (k, a) ∧ k ∈ l.map Prod.fst) ∨ (kv ∈ l ∧ kv.1 ≠ k) := by
  intro l
  induction l with
  | nil => intro _ kv h; simp [updateKey] at h
  | cons hd rest ih =>
      obtain ⟨k', b⟩ := hd
      intro hnd kv hkv
      simp only [List.map_cons, List.nodup_cons] at hnd
      obtain ⟨hk', hnd2⟩ := hnd
      unfold updateKey at hkv
      by_cases h : k' = k
      · rw [if_pos h] at hkv
        subst h
        rcases List.mem_cons.mp hkv with h1 | h1
        · left
          exact ⟨h1, by simp⟩
        · right
          refine ⟨List.mem_cons_of_mem _ h1, ?_⟩
          intro hcontra
          apply hk'
          rw [← hcontra]
          exact List.mem_map.mpr ⟨kv, h1, rfl⟩
      · rw [if_neg h] at hkv
        rcases List.mem_cons.mp hkv with h1 | h1
        · right
          refine ⟨by rw [h1]; exact List.mem_cons_self _ _, ?_⟩
          rw [h1]
          exact h
        · rcases ih hnd2 kv h1 with ⟨he, hm⟩ | ⟨hm, hne⟩
          · left
            exact ⟨he, by simp only [List.map_cons]; exact List.mem_cons_of_mem _ hm⟩
          · right
            exact ⟨List.mem_cons_of_mem _ hm, hne⟩

theorem aggInv_nil (now : ℤ) (window : Option ℤ) :
    AggInv now window [] [] := by
  refine ⟨by simp, ?_, ?_⟩ <;> intro x hx <;> simp at hx

theorem aggStep_inv (now : ℤ) (window : Option ℤ) (seen : List Attempt)
    (acc : List (ℕ × Attempt)) (x : Attempt)
    (h : AggInv now window seen acc) :
    AggInv now window (seen ++ [x]) (aggStep now window acc x) := by
  obtain ⟨hnd, hcomp, hmem⟩ := h
  unfold aggStep
  by_cases hs : surviveAgg now window x = true
  · rw [if_pos hs]
    unfold dedupInsert
    cases hl : acc.lookup x.subQuestionId with
    | none =>
        have hknotin : x.subQuestionId ∉ acc.map Prod.fst :=
          (lookup_none_iff _ acc).mp hl
        refine ⟨?_, ?_, ?_⟩
        · rw [List.map_append]
          rw [List.nodup_append]
          refine ⟨hnd, by simp, ?_⟩
          intro y hy hy2
          simp at hy2
          subst hy2
          exact hknotin hy
        · intro b hb hsb
          rw [List.map_append]
          rcases List.mem_append.mp hb with h1 | h1
          · exact List.mem_append_left _ (hcomp b h1 hsb)
          · simp at h1
            subst h1
            apply List.mem_append_right
            simp
        · intro kv hkv
          rcases List.mem_append.mp hkv with h1 | h1
          · obtain ⟨e1, e2, e3, e4⟩ := hmem kv h1
            refine ⟨e1, List.mem_append_left _ e2, e3, ?_⟩
            intro b hb hsb hbk
            rcases List.mem_append.mp hb with h2 | h2
            · exact e4 b h2 hsb hbk
            · simp at h2
              subst h2
              exfalso
              apply hknotin
              rw [hbk]
              exact List.mem_map.mpr ⟨kv, h1, rfl⟩
          · simp at h1
            subst h1
            refine ⟨rfl, List.mem_append_right _ (by simp), hs, ?_⟩
            intro b hb hsb hbk
            rcases List.mem_append.mp hb with h2 | h2
            · exfalso
              apply hknotin
              have h3 := hcomp b h2 hsb
              rwa [hbk] at h3
            · simp at h2
              subst h2
              exact le_refl _
    | some stored =>
        have hstored_mem : (x.subQuestionId, stored) ∈ acc :=
          lookup_some_mem _ _ acc hl
        have hkey_in : x.subQuestionId ∈ acc.map Prod.fst :=
          List.mem_map.mpr ⟨_, hstored_mem, rfl⟩
        obtain ⟨s1, s2, s3, s4⟩ := hmem _ hstored_mem
        show AggInv now window (seen ++ [x])
          (if stored.createdAt < x.createdAt then
            updateKey x.subQuestionId x acc
          else acc)
        by_cases hlt : stored.createdAt < x.createdAt
        · rw [if_pos hlt]
          refine ⟨?_, ?_, ?_⟩
          · rw [updateKey_keys]
            exact hnd
          · intro b hb hsb
            rw [updateKey_keys]
            rcases List.mem_append.mp hb with h1 | h1
            · exact hcomp b h1 hsb
            · simp at h1
              subst h1
              exact hkey_in
          · intro kv hkv
            rcases updateKey_mem_strong _ _ acc hnd kv hkv with ⟨he, _⟩ | ⟨hm, hne⟩
            · subst he
              refine ⟨rfl, List.mem_append_right _ (by simp), hs, ?_⟩
              intro b hb hsb hbk
              rcases List.mem_append.mp hb with h2 | h2
              · exact le_of_lt (lt_of_le_of_lt (s4 b h2 hsb hbk) hlt)
              · simp at h2
                subst h2
                exact le_refl _
            · obtain ⟨e1, e2, e3, e4⟩ := hmem kv hm
              refine ⟨e1, List.mem_append_left _ e2, e3, ?_⟩
              intro b hb hsb hbk
              rcases List.mem_append.mp hb with h2 | h2
              · exact e4 b h2 hsb hbk
              · simp at h2
                subst h2
                exact absurd hbk.symm hne
        · rw [if_neg hlt]
          refine ⟨hnd, ?_, ?_⟩
          · intro b hb hsb
            rcases List.mem_append.mp hb with h1 | h1
            · exact hcomp b h1 hsb
            · simp at h1
              subst h1
              exact hkey_in
          · intro kv hkv
            obtain ⟨e1, e2, e3, e4⟩ := hmem kv hkv
            refine ⟨e1, List.mem_append_left _ e2, e3, ?_⟩
            intro b hb hsb hbk
            rcases List.mem_append.mp hb with h2 | h2
            · exact e4 b h2 hsb hbk
            · simp at h2
              subst h2
              have hmem2 : (kv.1, kv.2) ∈ acc := by simpa using hkv
              have hstored2 : (kv.1, stored) ∈ acc := by
                rw [← hbk]
                exact hstored_mem
              have hsame : kv.2 = stored :=
                nodup_key_unique acc hnd kv.1 kv.2 stored hmem2 hstored2
              rw [hsame]
              exact le_of_not_lt hlt
  · rw [if_neg hs]
    refine ⟨hnd, ?_, ?_⟩
    · intro b hb hsb
      rcases List.mem_append.mp hb with h1 | h1
      · exact hcomp b h1 hsb
      · simp at h1
        subst h1
        exact absurd hsb hs
    · intro kv hkv
      obtain ⟨e1, e2, e3, e4⟩ := hmem kv hkv
      refine ⟨e1, List.mem_append_left _ e2, e3, ?_⟩
      intro b hb hsb hbk
      rcases List.mem_append.mp hb with h2 | h2
      · exact e4 b h2 hsb hbk
      · simp at h2
        subst h2
        exact absurd hsb hs

theorem foldl_aggStep_inv (now : ℤ) (window : Option ℤ) :
    ∀ (rest seen : List Attempt) (acc : List (ℕ × Attempt)),
      AggInv now window seen acc →
      AggInv now window (seen ++ rest) (rest.foldl (aggStep now window) acc) := by
  intro rest
  induction rest with
  | nil => intro seen acc h; simpa using h
  | cons x xs ih =>
      intro seen acc h
      rw [List.foldl_cons]
      have h2 := aggStep_inv now window seen acc x h
      have h3 := ih (seen ++ [x]) _ h2
      rwa [List.append_assoc, List.singleton_append] at h3

theorem uniqueSubQuestions_inv (now : ℤ) (window : Option ℤ)
    (attempts : List Attempt) :
    AggInv now window attempts (uniqueSubQuestions now window attempts) := by
  have h := foldl_aggStep_inv now window attempts [] [] (aggInv_nil now window)
  simpa using h

theorem filter_key_len_le_one (i : ℕ) :
    ∀ l : List (ℕ × Attempt), (l.map Prod.fst).Nodup →
      (l.filter (fun kv => kv.1 == i)).length ≤ 1 := by
  intro l
  induction l with
  | nil => intro _; simp
  | cons kv rest ih =>
      intro hnd
      simp only [List.map_cons, List.nodup_cons] at hnd
      obtain ⟨hni, hnd2⟩ := hnd
      rw [List.filter_cons]
      by_cases h : kv.1 = i
      · rw [if_pos (by simp [h])]
        have hempty : rest.filter (fun kv => kv.1 == i) = [] := by
          rw [List.filter_eq_nil_iff]
          intro b hb
          simp only [beq_iff_eq]
          intro hbi
          apply hni
          rw [h, ← hbi]
          exact List.mem_map.mpr ⟨b, hb, rfl⟩
        rw [hempty]
        simp
      · rw [if_neg (by simp [h])]
        exact ih hnd2

/-- C3: after the windowed dedup of `get_performances`, every
`sub_question_id` contributes at most one entry (the dict keys are
distinct, so at most one score reaches the matrix per sub-question),
and each kept entry is a surviving fetched attempt carrying that
`sub_question_id` whose `created_at` is maximal among all surviving
fetched attempts with the same `sub_question_id`. -/
theorem C3_dedup_one_latest_score_per_subquestion (now : ℤ)
    (window : Option ℤ) (attempts : List Attempt) :
    ((uniqueSubQuestions now window attempts).map Prod.fst).Nodup ∧
    (∀ i : ℕ, ((uniqueSubQuestions now window attempts).filter
        (fun kv => kv.1 == i)).length ≤ 1) ∧
    (∀ kv ∈ uniqueSubQuestions now window attempts,
      kv.2.subQuestionId = kv.1 ∧ kv.2 ∈ attempts ∧
      surviveAgg now window kv.2 = true ∧
      ∀ b ∈ attempts, surviveAgg now window b = true →
        b.subQuestionId = kv.1 → b.createdAt ≤ kv.2.createdAt) := by
  obtain ⟨h1, _, h3⟩ := uniqueSubQuestions_inv now window attempts
  exact ⟨h1, fun i => filter_key_len_le_one i _ h1, h3⟩

/-! ## Date series -/

theorem collectDates_foldl_nodup (localDay : ℤ → ℤ) :
    ∀ (as : List Attempt) (ds : List ℤ), ds.Nodup →
      (as.foldl (fun ds a =>
        if localDay a.createdAt ∈ ds then ds
        else ds ++ [localDay a.createdAt]) ds).Nodup := by
  intro as
  induction as with
  | nil => intro ds h; simpa using h
  | cons a as ih =>
      intro ds h
      rw [List.foldl_cons]
      apply ih
      by_cases hmem : localDay a.createdAt ∈ ds
      · rw [if_pos hmem]
        exact h
      · rw [if_neg hmem]
        rw [List.nodup_append]
        refine ⟨h, by simp, ?_⟩
        intro y hy hy2
        simp at hy2
        subst hy2
        exact hmem hy

theorem collectDates_foldl_mem (localDay : ℤ → ℤ) :
    ∀ (as : List Attempt) (ds : List ℤ) (d : ℤ),
      (d ∈ as.foldl (fun ds a =>
          if localDay a.createdAt ∈ ds then ds
          else ds ++ [localDay a.createdAt]) ds ↔
        d ∈ ds ∨ ∃ a ∈ as, localDay a.createdAt = d) := by
  intro as
  induction as with
  | nil => intro ds d; simp
  | cons a as ih =>
      intro ds d
      rw [List.foldl_cons, ih]
      by_cases hmem : localDay a.createdAt ∈ ds
      · rw [if_pos hmem]
        constructor
        · rintro (h | ⟨b, hb, hbd⟩)
          · exact Or.inl h
          · exact Or.inr ⟨b, List.mem_cons_of_mem _ hb, hbd⟩
        · rintro (h | ⟨b, hb, hbd⟩)
          · exact Or.inl h
          · rcases List.mem_cons.mp hb with rfl | hb2
            · left
              rw [← hbd]
              exact hmem
            · exact Or.inr ⟨b, hb2, hbd⟩
      · rw [if_neg hmem]
        constructor
        · rintro (h | ⟨b, hb, hbd⟩)
          · rcases List.mem_append.mp h with h2 | h2
            · exact Or.inl h2
            · simp at h2
              exact Or.inr ⟨a, List.mem_cons_self _ _, h2.symm⟩
          · exact Or.inr ⟨b, List.mem_cons_of_mem _ hb, hbd⟩
        · rintro (h | ⟨b, hb, hbd⟩)
          · exact Or.inl (List.mem_append_left _ h)
          · rcases List.mem_cons.mp hb with rfl | hb2
            · left
              apply List.mem_append_right
              simp [hbd]
            · exact Or.inr ⟨b, hb2, hbd⟩

theorem collectDates_nodup (localDay : ℤ → ℤ) (as : List Attempt) :
    (collectDates localDay as).Nodup := by
  unfold collectDates
  exact collectDates_foldl_nodup localDay as [] (by simp)

theorem collectDates_mem (localDay : ℤ → ℤ) (as : List Attempt) (d : ℤ) :
    d ∈ collectDates localDay as ↔ ∃ a ∈ as, localDay a.createdAt = d := by
  unfold collectDates
  rw [collectDates_foldl_mem]
  simp

theorem length_filter_split (p : Attempt → Bool) :
    ∀ l : List Attempt,
      (l.filter p).length + (l.filter (fun a => !(p a))).length = l.length := by
  intro l
  induction l with
  | nil => rfl
  | cons a as ih =>
      rw [List.filter_cons, List.filter_cons]
      cases hpa : p a <;> simp [hpa, ← ih] <;> omega

theorem sum_filter_lengths (f : Attempt → ℤ) :
    ∀ (ds : List ℤ), ds.Nodup → ∀ l : List Attempt,
      (∀ a ∈ l, f a ∈ ds) →
      (ds.map (fun d => (l.filter (fun a => f a == d)).length)).sum =
        l.length := by
  intro ds
  induction ds with
  | nil =>
      intro _ l hcov
      have hl : l = [] := by
        cases l with
        | nil => rfl
        | cons a as =>
            exact absurd (hcov a (List.mem_cons_self _ _)) (List.not_mem_nil _)
      subst hl
      simp
  | cons d ds ih =>
      intro hnd l hcov
      rw [List.nodup_cons] at hnd
      obtain ⟨hd, hnd2⟩ := hnd
      simp only [List.map_cons, List.sum_cons]
      have hcov2 : ∀ a ∈ l.filter (fun a => !(f a == d)), f a ∈ ds := by
        intro a ha
        obtain ⟨ha1, ha2⟩ := List.mem_filter.mp ha
        have hne : f a ≠ d := by
          intro hcontra
          rw [Bool.not_eq_true'] at ha2
          exact absurd hcontra (by simpa using ha2)
        rcases List.mem_cons.mp (hcov a ha1) with h2 | h2
        · exact absurd h2 hne
        · exact h2
      have hih := ih hnd2 (l.filter (fun a => !(f a == d))) hcov2
      have hmap : ds.map
            (fun d' => ((l.filter (fun a => !(f a == d))).filter
              (fun a => f a == d')).length) =
          ds.map (fun d' => (l.filter (fun a => f a == d')).length) := by
        apply List.map_congr_left
        intro d' hd'
        have hne : d' ≠ d := fun h => hd (h ▸ hd')
        rw [List.filter_filter]
        congr 1
        apply List.filter_congr
        intro a _
        by_cases hfa : f a = d'
        · have h2 : f a ≠ d := by rw [hfa]; exact hne
          simp [hfa, h2, hne]
        · simp [hfa]
      rw [hmap] at hih
      rw [hih]
      exact length_filter_split (fun a => f a == d) l

theorem getAverageDate_eq (group : List Attempt) :
    getAverageDate (group.map (fun a => a.performance.value)) =
      round2 ((group.map (fun a => (a.performance.value : ℚ))).sum /
        (group.length : ℚ)) := by
  unfold getAverageDate
  rw [List.map_map, List.length_map]
  rfl

/-- C4: `get_performance_date_data` returns two parallel arrays sorted
ascending by date; the dates are exactly the distinct day keys of the
surviving attempts (each `created_at` sent through the fixed
`Pacific/Auckland` day-truncation `localDay`), with no duplicates; each
score is the arithmetic mean, rounded to 2 decimal places, of the
performance values of ALL surviving attempts falling on that day (no
per-sub-question deduplication); every day group is nonempty and the
groups partition the survivors, so every surviving attempt is counted
exactly once. -/
theorem C4_date_series_parallel_arrays (localDay : ℤ → ℤ) (now : ℤ)
    (window : Option ℤ) (attempts : List Attempt) :
    (getPerformanceDateData localDay now window attempts).2.Sorted (· ≤ ·) ∧
    (getPerformanceDateData localDay now window attempts).2.Nodup ∧
    (∀ d : ℤ,
      d ∈ (getPerformanceDateData localDay now window attempts).2 ↔
        ∃ a ∈ attempts.filter (surviveDate now window),
          localDay a.createdAt = d) ∧
    (getPerformanceDateData localDay now window attempts).1 =
      (getPerformanceDateData localDay now window attempts).2.map
        (fun d =>
          round2
            ((((attempts.filter (surviveDate now window)).filter
                  (fun a => localDay a.createdAt == d)).map
                (fun a => (a.performance.value : ℚ))).sum /
              (((attempts.filter (surviveDate now window)).filter
                  (fun a => localDay a.createdAt == d)).length : ℚ))) ∧
    (∀ d ∈ (getPerformanceDateData localDay now window attempts).2,
      0 < ((attempts.filter (surviveDate now window)).filter
          (fun a => localDay a.createdAt == d)).length) ∧
    ((getPerformanceDateData localDay now window attempts).2.map
        (fun d => ((attempts.filter (surviveDate now window)).filter
            (fun a => localDay a.createdAt == d)).length)).sum =
      (attempts.filter (surviveDate now window)).length := by
  have hdates : (getPerformanceDateData localDay now window attempts).2 =
      (collectDates localDay
        (attempts.filter (surviveDate now window))).insertionSort (· ≤ ·) :=
    rfl
  have hperm : (getPerformanceDateData localDay now window attempts).2.Perm
      (collectDates localDay (attempts.filter (surviveDate now window))) := by
    rw [hdates]
    exact List.perm_insertionSort _ _
  have hmemiff : ∀ d : ℤ,
      d ∈ (getPerformanceDateData localDay now window attempts).2 ↔
        ∃ a ∈ attempts.filter (surviveDate now window),
          localDay a.createdAt = d := by
    intro d
    rw [hperm.mem_iff]
    exact collectDates_mem localDay _ d
  refine ⟨?_, ?_, hmemiff, ?_, ?_, ?_⟩
  · rw [hdates]
    exact List.sorted_insertionSort _ _
  · exact hperm.nodup_iff.mpr (collectDates_nodup localDay _)
  · show ((getPerformanceDateData localDay now window attempts).2.map
        (fun d => getAverageDate
          (((attempts.filter (surviveDate now window)).filter
            (fun a => localDay a.createdAt == d)).map
              (fun a => a.performance.value)))) = _
    simp only [getAverageDate_eq]
  · intro d hd
    obtain ⟨a, ha, had⟩ := (hmemiff d).mp hd
    apply List.length_pos_of_mem
    show a ∈ _
    exact List.mem_filter.mpr ⟨ha, by simp [had]⟩
  · apply sum_filter_lengths (fun a => localDay a.createdAt)
    · exact hperm.nodup_iff.mpr (collectDates_nodup localDay _)
    · intro a ha
      exact (hmemiff (localDay a.createdAt)).mpr ⟨a, ha, rfl⟩
